import Mathlib

/-!
Verification of the Expense-Manager approval engine.

This file gives a shallow embedding of the approval-routing and decision
logic of the repository:

  * `determineApprovers` and `processApproval` from
    `backend/src/services/approvalService.js` (class `ApprovalService`);
  * `overrideApproval` from `AdminController.overrideApproval`;
  * the approval-relevant part of `ExpenseController.createExpense`;
  * the `status` enums of `expenseSchema` (model `Expense`).

Mongo documents become Lean structures; user ids become `Nat`; JavaScript
numbers used for amounts and sequences become `Int`; `new Date()` becomes
an explicit `now : Nat` parameter; a thrown error becomes `Except.error`.
Statuses and decisions stay `String`, exactly as in the JavaScript code.
-/

namespace ExpenseManager

/-- One entry of `expense.approvals` (subdocument of `expenseSchema.approvals`). -/
structure Approval where
  approver : Nat
  status : String
  comments : Option String
  approvedAt : Option Nat
  sequence : Int
deriving DecidableEq

/-- The `conditions` subdocument of `approvalRuleSchema`. -/
structure RuleConditions where
  minAmount : Int
  maxAmount : Int
  categories : List String
  departments : List String
deriving DecidableEq

/-- One entry of `approvalRuleSchema.approvers`. -/
structure RuleApprover where
  user : Nat
  sequence : Int
  isRequired : Bool
deriving DecidableEq

/-- The `rules` subdocument of `approvalRuleSchema` (policy configuration). -/
structure RuleConfig where
  type : String
  percentageRequired : Option Int
  specificApprovers : List Nat
  requireManagerApproval : Bool
deriving DecidableEq

/-- A document of the `ApprovalRule` model. -/
structure ApprovalRule where
  company : Nat
  name : String
  conditions : RuleConditions
  approvers : List RuleApprover
  rules : RuleConfig
  isActive : Bool
  priority : Int
deriving DecidableEq

/-- A `User` document restricted to the fields the approval engine reads. -/
structure User where
  id : Nat
  manager : Option Nat
  department : String
deriving DecidableEq

/-- An `Expense` document restricted to its approval-relevant fields. -/
structure Expense where
  employee : Nat
  company : Nat
  category : String
  convertedAmount : Int
  status : String
  approvals : List Approval
  currentApprovalLevel : Int
  finalApprover : Option Nat
  approvedAt : Option Nat
  rejectedAt : Option Nat
  rejectionReason : Option String
deriving DecidableEq

/-- The filter of the `ApprovalRule.find` query in `determineApprovers`:
same company, `isActive: true`, `conditions.minAmount <= amount` and
`conditions.maxAmount >= amount`.  Categories and departments do not
appear in the query. -/
def ruleMatches (r : ApprovalRule) (companyId : Nat) (amount : Int) : Bool :=
  r.company == companyId && r.isActive &&
    decide (r.conditions.minAmount ≤ amount) &&
    decide (r.conditions.maxAmount ≥ amount)

/-- Descending order on rule priority, mirroring `.sort({ priority: -1 })`. -/
def priorityGe (a b : ApprovalRule) : Prop := b.priority ≤ a.priority

instance : DecidableRel priorityGe := fun a b =>
  inferInstanceAs (Decidable (b.priority ≤ a.priority))

instance : IsTotal ApprovalRule priorityGe :=
  ⟨fun a b => le_total b.priority a.priority⟩

instance : IsTrans ApprovalRule priorityGe :=
  ⟨fun _ _ _ hab hbc => le_trans hbc hab⟩

/-- The matching rules as returned by the query in `determineApprovers`:
filtered by `ruleMatches` and sorted by priority descending. -/
def matchingRules (rules : List ApprovalRule) (companyId : Nat) (amount : Int) :
    List ApprovalRule :=
  (rules.filter (fun r => ruleMatches r companyId amount)).insertionSort priorityGe

/-- Ascending order on step sequence, mirroring `sort((a, b) => a.sequence - b.sequence)`. -/
def seqLe (a b : Approval) : Prop := a.sequence ≤ b.sequence

instance : DecidableRel seqLe := fun a b =>
  inferInstanceAs (Decidable (a.sequence ≤ b.sequence))

instance : IsTotal Approval seqLe := ⟨fun a b => le_total a.sequence b.sequence⟩

instance : IsTrans Approval seqLe := ⟨fun _ _ _ hab hbc => le_trans hab hbc⟩

/-- `ApprovalService.determineApprovers`.  The rule store and the employee
(read with `User.findById` for the manager lookup) are explicit inputs.
With no matching rule the fallback is the manager alone at sequence 1, or
the empty chain; with a matching rule (highest priority first) the manager
is prepended at sequence 0 when `requireManagerApproval` and a manager
exists, the rule approvers get their sequence shifted by +1 whenever
`requireManagerApproval` is set, and the chain is sorted by sequence. -/
def determineApprovers (rules : List ApprovalRule) (expense : Expense)
    (employee : User) : List Approval :=
  match matchingRules rules expense.company expense.convertedAmount with
  | [] =>
    match employee.manager with
    | some m => [⟨m, "pending", none, none, 1⟩]
    | none => []
  | rule :: _ =>
    let managerSteps : List Approval :=
      if rule.rules.requireManagerApproval then
        match employee.manager with
        | some m => [⟨m, "pending", none, none, 0⟩]
        | none => []
      else []
    let shift : Int := if rule.rules.requireManagerApproval then 1 else 0
    let ruleSteps : List Approval :=
      rule.approvers.map (fun a => ⟨a.user, "pending", none, none, a.sequence + shift⟩)
    (managerSteps ++ ruleSteps).insertionSort seqLe

/-- The `findIndex` call of `processApproval`: index of the first approval
whose approver matches and whose status is `pending`. -/
def findPendingIdx (approverId : Nat) : List Approval → Option Nat
  | [] => none
  | a :: rest =>
    if a.approver == approverId && a.status == "pending" then some 0
    else (findPendingIdx approverId rest).map (· + 1)

/-- In-place update of the approval at a given index, mirroring the
assignments to `expense.approvals[approvalIndex]`. -/
def modifyIdx (f : Approval → Approval) : List Approval → Nat → List Approval
  | [], _ => []
  | a :: rest, 0 => f a :: rest
  | a :: rest, n + 1 => a :: modifyIdx f rest n

/-- The `find` call of `processApproval`: the first approval at an index
strictly greater than `i` whose status is `pending`. -/
def nextPendingAfter (l : List Approval) (i : Nat) : Option Approval :=
  (l.drop (i + 1)).find? (fun a => a.status == "pending")

/-- `ApprovalService.processApproval`.  Locates the approver's first pending
step, records the decision on it, and updates the expense status:
`rejected` makes the expense rejected; `approved` makes it approved when no
pending step remains at a later index, and otherwise only advances
`currentApprovalLevel`. -/
def processApproval (e : Expense) (approverId : Nat) (decision : String)
    (comments : String) (now : Nat) : Except String Expense :=
  match findPendingIdx approverId e.approvals with
  | none => .error "Approval not found or already processed"
  | some i =>
    let updated := modifyIdx
      (fun a => { a with status := decision, comments := some comments, approvedAt := some now })
      e.approvals i
    let e1 := { e with approvals := updated }
    if decision = "rejected" then
      .ok { e1 with status := "rejected", rejectedAt := some now, rejectionReason := some comments }
    else if decision = "approved" then
      match nextPendingAfter updated i with
      | none =>
        .ok { e1 with status := "approved", approvedAt := some now,
                      finalApprover := some approverId }
      | some nxt => .ok { e1 with currentApprovalLevel := nxt.sequence }
    else
      .ok e1

/-- `AdminController.overrideApproval`.  Validates the decision, forces the
expense status, stamps the final approver and timestamps, and marks every
still-pending step `overridden` with the comment `Overridden by admin`. -/
def overrideApproval (e : Expense) (adminId : Nat) (decision : String)
    (comments : String) (now : Nat) : Except String Expense :=
  if decision = "approved" ∨ decision = "rejected" then
    let e1 := { e with status := decision, finalApprover := some adminId }
    let e2 :=
      if decision = "approved" then { e1 with approvedAt := some now }
      else { e1 with rejectedAt := some now, rejectionReason := some comments }
    .ok { e2 with approvals := e2.approvals.map (fun a =>
      if a.status = "pending" then
        { a with status := "overridden", comments := some "Overridden by admin",
                 approvedAt := some now }
      else a) }
  else
    .error "Invalid decision"

/-- The expense document as first constructed by
`ExpenseController.createExpense` (schema defaults: status `pending`,
empty approvals, `currentApprovalLevel` 0). -/
def newExpenseDoc (employee : User) (companyId : Nat) (category : String)
    (amount : Int) : Expense :=
  { employee := employee.id, company := companyId, category := category,
    convertedAmount := amount, status := "pending", approvals := [],
    currentApprovalLevel := 0, finalApprover := none, approvedAt := none,
    rejectedAt := none, rejectionReason := none }

/-- The approval-relevant tail of `ExpenseController.createExpense`: the new
expense document, its resolved approver chain, and the initial status —
`in_review` with `currentApprovalLevel = approvers[0].sequence` when the
chain is non-empty, `approved` with `approvedAt` stamped otherwise. -/
def createExpense (rules : List ApprovalRule) (employee : User) (companyId : Nat)
    (category : String) (amount : Int) (now : Nat) : Expense :=
  let base : Expense := newExpenseDoc employee companyId category amount
  match determineApprovers rules base employee with
  | [] => { base with status := "approved", approvedAt := some now }
  | a :: rest =>
    { base with approvals := a :: rest, status := "in_review",
                currentApprovalLevel := a.sequence }

/-- The `enum` of `expenseSchema.approvals.status`: exactly `pending`,
`approved`, `rejected`.  (`overridden` is not in the enum.) -/
def stepStatusValid (s : String) : Bool :=
  s == "pending" || s == "approved" || s == "rejected"

/-- The `enum` of `expenseSchema.status`. -/
def expenseStatusValid (s : String) : Bool :=
  s == "pending" || s == "approved" || s == "rejected" || s == "in_review"

/-- Mongoose enum validation of an expense document at save time. -/
def expenseSchemaValid (e : Expense) : Bool :=
  expenseStatusValid e.status && e.approvals.all (fun a => stepStatusValid a.status)

/-- Number of steps currently carrying status `approved`. -/
def approvedCount (l : List Approval) : Nat :=
  (l.filter (fun a => a.status == "approved")).length

/-- Modelled from the spec: the approval threshold `ceil(T/100 * N)` of the
`percentage` policy, for threshold `T` and chain length `N`.  The decision
processor in the source never computes any such threshold; this definition
exists only to state the spec's claim against the code. -/
def specCeil (t n : Nat) : Nat := (t * n + 99) / 100

/-- A minimal expense document used in concrete instances. -/
def exBase : Expense :=
  { employee := 10, company := 1, category := "food", convertedAmount := 500,
    status := "pending", approvals := [], currentApprovalLevel := 0,
    finalApprover := none, approvedAt := none, rejectedAt := none,
    rejectionReason := none }

/-- An employee without a manager. -/
def exNoMgr : User := ⟨10, none, "eng"⟩

/-- An employee whose manager is user 7. -/
def exWithMgr : User := ⟨11, some 7, "eng"⟩

/-- An in-review expense with a two-step chain, both steps pending. -/
def exTwoStep : Expense :=
  { exBase with
    status := "in_review",
    approvals := [⟨1, "pending", none, none, 0⟩, ⟨2, "pending", none, none, 1⟩] }

/-- A percentage-policy rule, threshold 50, over two approvers. -/
def exPercentRule : ApprovalRule :=
  { company := 1, name := "perc", conditions := ⟨0, 1000, [], []⟩,
    approvers := [⟨1, 0, true⟩, ⟨2, 1, true⟩],
    rules := ⟨"percentage", some 50, [], false⟩, isActive := true, priority := 1 }

/-- A rejected (terminal) expense that still carries a pending step,
exactly the shape `processApproval` leaves behind after a rejection. -/
def exRejectedPending : Expense :=
  { exBase with
    status := "rejected",
    approvals := [⟨1, "rejected", some "no", some 1, 0⟩, ⟨2, "pending", none, none, 1⟩],
    rejectedAt := some 1, rejectionReason := some "no" }

/-- A rule whose conditions restrict it to the `travel` category. -/
def exTravelRule : ApprovalRule :=
  { company := 1, name := "travelRule", conditions := ⟨0, 1000, ["travel"], []⟩,
    approvers := [⟨5, 0, true⟩], rules := ⟨"sequential", none, [], false⟩,
    isActive := true, priority := 2 }

/-- A rule with `requireManagerApproval` set and one approver at sequence 0. -/
def exMgrRule : ApprovalRule :=
  { company := 1, name := "mgrRule", conditions := ⟨0, 1000, [], []⟩,
    approvers := [⟨5, 0, true⟩], rules := ⟨"sequential", none, [], true⟩,
    isActive := true, priority := 2 }

/-- An in-review expense with a single pending step. -/
def exOneStep : Expense :=
  { exBase with status := "in_review", approvals := [⟨1, "pending", none, none, 0⟩] }

/-- An in-review expense with one decided and one pending step. -/
def exHalfDone : Expense :=
  { exBase with
    status := "in_review",
    approvals := [⟨1, "approved", some "y", some 1, 0⟩, ⟨2, "pending", none, none, 1⟩] }

/-! ### Helper lemmas -/

theorem modifyIdx_drop (f : Approval → Approval) :
    ∀ (l : List Approval) (i : Nat), (modifyIdx f l i).drop (i + 1) = l.drop (i + 1)
  | [], _ => by simp [modifyIdx]
  | _ :: _, 0 => rfl
  | a :: rest, i + 1 => by
    simp only [modifyIdx, List.drop_succ_cons]
    exact modifyIdx_drop f rest i

theorem modifyIdx_getElem?_ne (f : Approval → Approval) :
    ∀ (l : List Approval) (i j : Nat), j ≠ i → (modifyIdx f l i)[j]? = l[j]?
  | [], _, _, _ => by simp [modifyIdx]
  | a :: rest, 0, j, hj => by
    cases j with
    | zero => exact absurd rfl hj
    | succ j => simp [modifyIdx]
  | a :: rest, i + 1, j, hj => by
    cases j with
    | zero => simp [modifyIdx]
    | succ j =>
      simp only [modifyIdx, List.getElem?_cons_succ]
      exact modifyIdx_getElem?_ne f rest i j (fun h => hj (by rw [h]))

theorem modifyIdx_getElem?_eq (f : Approval → Approval) :
    ∀ (l : List Approval) (i : Nat), (modifyIdx f l i)[i]? = l[i]?.map f
  | [], _ => by simp [modifyIdx]
  | a :: rest, 0 => by simp [modifyIdx]
  | a :: rest, i + 1 => by
    simp only [modifyIdx, List.getElem?_cons_succ]
    exact modifyIdx_getElem?_eq f rest i

theorem findPendingIdx_some (aid : Nat) :
    ∀ {l : List Approval} {i : Nat}, findPendingIdx aid l = some i →
      ∃ a, l[i]? = some a ∧ a.approver = aid ∧ a.status = "pending"
  | [], i, h => by simp [findPendingIdx] at h
  | a :: rest, i, h => by
    by_cases hc : (a.approver == aid && a.status == "pending") = true
    · rw [findPendingIdx, if_pos hc] at h
      rw [Bool.and_eq_true] at hc
      cases h
      exact ⟨a, by simp, by simpa using hc.1, by simpa using hc.2⟩
    · rw [findPendingIdx, if_neg hc] at h
      obtain ⟨j, hj, hji⟩ := Option.map_eq_some'.mp h
      obtain ⟨b, hb, hb1, hb2⟩ := findPendingIdx_some aid hj
      subst hji
      exact ⟨b, by simpa using hb, hb1, hb2⟩

theorem determineApprovers_pending (rules : List ApprovalRule) (e : Expense) (emp : User) :
    ∀ a ∈ determineApprovers rules e emp, a.status = "pending" := by
  intro a ha
  simp only [determineApprovers] at ha
  split at ha
  · split at ha
    · rw [List.mem_singleton] at ha
      subst ha; rfl
    · simp at ha
  · rw [List.mem_insertionSort] at ha
    rcases List.mem_append.mp ha with h | h
    · split at h
      · split at h
        · rw [List.mem_singleton] at h
          subst h; rfl
        · simp at h
      · simp at h
    · obtain ⟨x, _, rfl⟩ := List.mem_map.mp h
      rfl

theorem determineApprovers_sorted (rules : List ApprovalRule) (e : Expense) (emp : User) :
    List.Sorted seqLe (determineApprovers rules e emp) := by
  simp only [determineApprovers]
  split
  · split
    · exact List.sorted_singleton _
    · exact List.sorted_nil
  · exact List.sorted_insertionSort seqLe _

theorem matchingRules_mem (rules : List ApprovalRule) (companyId : Nat) (amount : Int)
    (r : ApprovalRule) :
    r ∈ matchingRules rules companyId amount ↔
      r ∈ rules ∧ ruleMatches r companyId amount = true := by
  rw [matchingRules, List.mem_insertionSort, List.mem_filter]

theorem matchingRules_sorted (rules : List ApprovalRule) (companyId : Nat) (amount : Int) :
    List.Sorted priorityGe (matchingRules rules companyId amount) :=
  List.sorted_insertionSort priorityGe _

/-! ### Claim theorems -/

/-- C1 (counterexample).  The claim says a sequential chain of length N
reaches `approved` only when exactly N approvals occur.  On `exTwoStep`
(N = 2) a single out-of-order decision by the approver of the last step
already drives the status to `approved` while only one step is approved
and the first step is still pending. -/
theorem sequential_out_of_order_approval_cex :
    exTwoStep.approvals.length = 2 ∧
    (processApproval exTwoStep 2 "approved" "ok" 5).toOption.map
        (fun x => (x.status, approvedCount x.approvals,
                   x.approvals.map Approval.status))
      = some ("approved", 1, ["pending", "approved"]) := by
  constructor
  · rfl
  · decide

/-- C2 (code evaluated at the failing input).  For the percentage rule with
threshold 50 over a chain of length 2, the spec's threshold
`ceil(50/100 * 2)` is 1, yet after the first approval `processApproval`
leaves the expense `in_review` with one approved step: the decision
processor never consults the rule's policy or `percentageRequired`. -/
theorem percentage_policy_ignored_bug :
    specCeil 50 2 = 1 ∧
    (createExpense [exPercentRule] exNoMgr 1 "food" 500 0).status = "in_review" ∧
    (processApproval (createExpense [exPercentRule] exNoMgr 1 "food" 500 0)
        1 "approved" "ok" 1).toOption.map
        (fun x => (x.status, approvedCount x.approvals))
      = some ("in_review", 1) := by
  refine ⟨rfl, ?_, ?_⟩ <;> decide

/-- C3 (code evaluated at the failing input).  `processApproval` has no
terminal-state guard: on a rejected (terminal) expense that still carries a
pending step, a further `approved` decision succeeds and even flips the
expense status from `rejected` to `approved`, instead of failing without
mutation as the claim requires. -/
theorem terminal_expense_mutated_bug :
    exRejectedPending.status = "rejected" ∧
    (processApproval exRejectedPending 2 "approved" "ok" 5).toOption.map
        (fun x => (x.status, x.approvals.map Approval.status))
      = some ("approved", ["rejected", "approved"]) := by
  constructor
  · rfl
  · decide

/-- C4 (amended).  Rule matching in `determineApprovers` depends only on
the company, the `isActive` flag and the converted amount lying in the
inclusive range `[minAmount, maxAmount]`; the expense category and the
employee department are never consulted, so the whole resolved chain is
unchanged when either of them changes. -/
theorem rule_matching_ignores_category_department (rules : List ApprovalRule)
    (e : Expense) (emp : User) (cat dept : String) (r : ApprovalRule)
    (companyId : Nat) (amount : Int) :
    determineApprovers rules { e with category := cat } { emp with department := dept }
      = determineApprovers rules e emp ∧
    (ruleMatches r companyId amount = true ↔
      r.company = companyId ∧ r.isActive = true ∧
      r.conditions.minAmount ≤ amount ∧ amount ≤ r.conditions.maxAmount) := by
  constructor
  · rfl
  · simp [ruleMatches, Bool.and_eq_true, and_assoc, ge_iff_le]

/-- Witness for C4: changing the category and department leaves the
resolved chain unchanged. -/
theorem rule_matching_ignores_category_department_witness :
    determineApprovers [exTravelRule] { exBase with category := "travel" }
        { exNoMgr with department := "sales" }
      = determineApprovers [exTravelRule] exBase exNoMgr :=
  (rule_matching_ignores_category_department [exTravelRule] exBase exNoMgr
    "travel" "sales" exTravelRule 1 500).1

/-- C4 (counterexample).  A rule restricted to the `travel` category is
still treated as matching for a `food` expense: the categories condition of
the claim is not part of the query, and the rule's approver chain is used. -/
theorem rule_matching_category_cex :
    exTravelRule.conditions.categories = ["travel"] ∧
    exBase.category = "food" ∧
    ruleMatches exTravelRule exBase.company exBase.convertedAmount = true ∧
    (determineApprovers [exTravelRule] exBase exNoMgr).map
        (fun a => (a.approver, a.sequence)) = [(5, 0)] := by
  refine ⟨rfl, rfl, ?_, ?_⟩ <;> decide

/-- C5 (counterexample).  With no matching rule and an employee whose
manager is user 7, the fallback chain is the manager alone at sequence 1,
not at sequence 0 as the claim states. -/
theorem fallback_manager_sequence_cex :
    (determineApprovers [] exBase exWithMgr).map (fun a => (a.approver, a.sequence))
        = [(7, 1)] ∧
    ¬ (determineApprovers [] exBase exWithMgr).map (fun a => (a.approver, a.sequence))
        = [(7, 0)] := by
  constructor
  · decide
  · decide

/-- C6 (counterexample).  For a matching rule with `requireManagerApproval`
set and an employee without a manager, no manager step is prepended, yet
the rule approver's sequence is still shifted from 0 to 1 — the shift
tracks the rule flag, not whether a manager was actually prepended. -/
theorem sequence_shift_without_manager_cex :
    exNoMgr.manager = none ∧
    exMgrRule.rules.requireManagerApproval = true ∧
    exMgrRule.approvers.map RuleApprover.sequence = [0] ∧
    (determineApprovers [exMgrRule] exBase exNoMgr).map
        (fun a => (a.approver, a.sequence)) = [(5, 1)] := by
  refine ⟨rfl, rfl, rfl, ?_⟩
  decide

/-- C1 (amended).  With a pending step for the approver at index `i`, an
`approved` decision sets the expense status to `approved` (stamping
`approvedAt` and `finalApprover`) exactly when no pending step remains at
an index after `i`; otherwise the status is unchanged and
`currentApprovalLevel` advances to the next pending step's sequence.  A
`rejected` decision always sets the status to `rejected` and stamps
`rejectedAt` and `rejectionReason`. -/
theorem approval_completion_by_next_pending (e : Expense) (aid : Nat) (c : String)
    (now : Nat) (i : Nat) (h : findPendingIdx aid e.approvals = some i) :
    (∃ e', processApproval e aid "approved" c now = .ok e') ∧
    (∀ e', processApproval e aid "approved" c now = .ok e' →
      (nextPendingAfter e.approvals i = none →
        e'.status = "approved" ∧ e'.approvedAt = some now ∧ e'.finalApprover = some aid) ∧
      ∀ nxt, nextPendingAfter e.approvals i = some nxt →
        e'.status = e.status ∧ e'.currentApprovalLevel = nxt.sequence) ∧
    (∃ e', processApproval e aid "rejected" c now = .ok e' ∧
      e'.status = "rejected" ∧ e'.rejectedAt = some now ∧ e'.rejectionReason = some c) := by
  have hdrop : ∀ f : Approval → Approval,
      nextPendingAfter (modifyIdx f e.approvals i) i = nextPendingAfter e.approvals i := by
    intro f
    rw [nextPendingAfter, nextPendingAfter, modifyIdx_drop]
  refine ⟨?_, ?_, ?_⟩
  · cases hq : processApproval e aid "approved" c now with
    | ok e' => exact ⟨e', rfl⟩
    | error m =>
      simp only [processApproval, h] at hq
      repeat' split at hq
      all_goals exact Except.noConfusion hq
  · intro e' heq
    simp only [processApproval, h, String.reduceEq, reduceIte] at heq
    rw [hdrop] at heq
    constructor
    · intro hn
      rw [hn, Except.ok.injEq] at heq
      subst heq
      exact ⟨rfl, rfl, rfl⟩
    · intro nxt hn
      rw [hn, Except.ok.injEq] at heq
      subst heq
      exact ⟨rfl, rfl⟩
  · cases hq : processApproval e aid "rejected" c now with
    | ok e' =>
      refine ⟨e', rfl, ?_⟩
      simp only [processApproval, h, String.reduceEq, reduceIte] at hq
      rw [Except.ok.injEq] at hq
      subst hq
      exact ⟨rfl, rfl, rfl⟩
    | error m =>
      simp only [processApproval, h, String.reduceEq, reduceIte] at hq
      exact Except.noConfusion hq

/-- Witness for C1: on a one-step chain the single approver's decision
completes the expense. -/
theorem approval_completion_by_next_pending_witness :
    findPendingIdx 1 exOneStep.approvals = some 0 ∧
    (processApproval exOneStep 1 "approved" "ok" 3).toOption.map
      (fun x => (x.status, x.approvedAt, x.finalApprover))
      = some ("approved", some 3, some 1) := by
  obtain ⟨⟨e', heq⟩, hchar, _⟩ :=
    approval_completion_by_next_pending exOneStep 1 "ok" 3 0 (by decide)
  have hfacts := (hchar e' heq).1 (by decide)
  refine ⟨by decide, ?_⟩
  rw [heq]
  simp [Except.toOption, hfacts.1, hfacts.2.1, hfacts.2.2]

/-- C5 (amended).  `determineApprovers` uses the head of the
priority-sorted matching rules as the sole authoritative rule: that head
matches and has maximal priority among all matching rules.  When no rule
matches, the chain is the employee's manager as sole approver at sequence
1 (not 0) if a manager exists, and empty otherwise. -/
theorem rule_selection_and_fallback (rules : List ApprovalRule) (e : Expense)
    (emp : User) :
    (matchingRules rules e.company e.convertedAmount = [] →
      determineApprovers rules e emp =
        match emp.manager with
        | some m => [⟨m, "pending", none, none, 1⟩]
        | none => []) ∧
    (∀ r rest, matchingRules rules e.company e.convertedAmount = r :: rest →
      r ∈ rules ∧ ruleMatches r e.company e.convertedAmount = true ∧
      ∀ r' ∈ rules, ruleMatches r' e.company e.convertedAmount = true →
        r'.priority ≤ r.priority) := by
  constructor
  · intro h
    simp only [determineApprovers, h]
  · intro r rest h
    have hr : r ∈ matchingRules rules e.company e.convertedAmount := by
      rw [h]; exact List.mem_cons_self r rest
    rw [matchingRules_mem] at hr
    refine ⟨hr.1, hr.2, ?_⟩
    intro r' hr' hm
    have h1 : r' ∈ matchingRules rules e.company e.convertedAmount :=
      (matchingRules_mem rules e.company e.convertedAmount r').mpr ⟨hr', hm⟩
    rw [h] at h1
    rcases List.mem_cons.mp h1 with rfl | h2
    · exact le_refl _
    · have hs := matchingRules_sorted rules e.company e.convertedAmount
      rw [h] at hs
      exact List.rel_of_sorted_cons hs r' h2

/-- Witness for C5: no rule matches and the manager is user 7, so the
chain is the manager alone. -/
theorem rule_selection_and_fallback_witness :
    determineApprovers [] exBase exWithMgr = [⟨7, "pending", none, none, 1⟩] := by
  have h := (rule_selection_and_fallback [] exBase exWithMgr).1 (by decide)
  simpa using h

/-- C6 (amended).  With a matching rule, the chain returned by
`determineApprovers` is, up to the final ascending stable sort by
sequence, the manager at sequence 0 (only when the rule requires manager
approval and a manager exists) followed by the rule approvers with their
sequences shifted by +1 exactly when the rule has `requireManagerApproval`
set — regardless of whether a manager was actually prepended — and every
step of the chain is `pending`. -/
theorem chain_construction_with_rule (rules : List ApprovalRule) (e : Expense)
    (emp : User) (rule : ApprovalRule) (rest : List ApprovalRule)
    (h : matchingRules rules e.company e.convertedAmount = rule :: rest) :
    (∀ a ∈ determineApprovers rules e emp, a.status = "pending") ∧
    List.Sorted seqLe (determineApprovers rules e emp) ∧
    List.Perm (determineApprovers rules e emp)
      ((if rule.rules.requireManagerApproval then
          match emp.manager with
          | some m => [⟨m, "pending", none, none, 0⟩]
          | none => []
        else []) ++
        rule.approvers.map (fun a =>
          ⟨a.user, "pending", none, none,
            a.sequence + if rule.rules.requireManagerApproval then 1 else 0⟩)) := by
  refine ⟨determineApprovers_pending rules e emp,
          determineApprovers_sorted rules e emp, ?_⟩
  simp only [determineApprovers, h]
  exact List.perm_insertionSort seqLe _

/-- Witness for C6: manager-requiring rule with an existing manager. -/
theorem chain_construction_with_rule_witness :
    (determineApprovers [exMgrRule] exBase exWithMgr).map
        (fun a => (a.approver, a.sequence)) = [(7, 0), (5, 1)] ∧
    List.Sorted seqLe (determineApprovers [exMgrRule] exBase exWithMgr) := by
  have h := chain_construction_with_rule [exMgrRule] exBase exWithMgr exMgrRule []
    (by decide)
  exact ⟨by decide, h.2.1⟩

/-- C7 (confirmed).  `processApproval` fails, returning an error and no
expense, exactly when the approver has no pending step; on success it
rewrites exactly the located pending step with the decision, and every
other step — in particular every already-decided step — is unchanged. -/
theorem decision_single_step (e : Expense) (aid : Nat) (d c : String) (now : Nat) :
    (findPendingIdx aid e.approvals = none →
      processApproval e aid d c now = .error "Approval not found or already processed") ∧
    (∀ i, findPendingIdx aid e.approvals = some i →
      (∃ e', processApproval e aid d c now = .ok e') ∧
      ∀ e', processApproval e aid d c now = .ok e' →
        (∃ a, e.approvals[i]? = some a ∧ a.status = "pending" ∧
          e'.approvals[i]? = some { a with status := d, comments := some c,
                                           approvedAt := some now }) ∧
        ∀ j, j ≠ i → e'.approvals[j]? = e.approvals[j]?) := by
  constructor
  · intro h
    simp [processApproval, h]
  · intro i h
    constructor
    · cases hq : processApproval e aid d c now with
      | ok e' => exact ⟨e', rfl⟩
      | error m =>
        simp only [processApproval, h] at hq
        repeat' split at hq
        all_goals exact Except.noConfusion hq
    · intro e' heq
      have happ : e'.approvals =
          modifyIdx (fun a => { a with status := d, comments := some c,
                                       approvedAt := some now }) e.approvals i := by
        simp only [processApproval, h] at heq
        repeat' split at heq
        all_goals rw [Except.ok.injEq] at heq
        all_goals subst heq
        all_goals rfl
      obtain ⟨a, ha, haid, hpend⟩ := findPendingIdx_some aid h
      refine ⟨⟨a, ha, hpend, ?_⟩, ?_⟩
      · rw [happ, modifyIdx_getElem?_eq, ha]
        rfl
      · intro j hj
        rw [happ, modifyIdx_getElem?_ne _ e.approvals i j hj]

/-- Witness for C7: approver 9 has no pending step on `exHalfDone`, so the
decision fails. -/
theorem decision_single_step_witness :
    processApproval exHalfDone 9 "approved" "x" 2
      = .error "Approval not found or already processed" :=
  (decision_single_step exHalfDone 9 "approved" "x" 2).1 (by decide)

/-- On success, admin override rewrites the approvals by the pointwise
`overridden` marking of pending steps. -/
theorem overrideApproval_ok_approvals (e : Expense) (adminId : Nat) (d c : String)
    (now : Nat) (e' : Expense) (heq : overrideApproval e adminId d c now = .ok e') :
    e'.approvals = e.approvals.map (fun a =>
      if a.status = "pending"
      then { a with status := "overridden", comments := some "Overridden by admin",
                    approvedAt := some now }
      else a) := by
  simp only [overrideApproval] at heq
  by_cases hd : d = "approved" ∨ d = "rejected"
  · rw [if_pos hd, Except.ok.injEq] at heq
    subst heq
    split <;> rfl
  · rw [if_neg hd] at heq
    exact Except.noConfusion heq

/-- On success, admin override forces the status, the final approver and
the timestamps. -/
theorem overrideApproval_ok_fields (e : Expense) (adminId : Nat) (d c : String)
    (now : Nat) (e' : Expense) (heq : overrideApproval e adminId d c now = .ok e') :
    e'.status = d ∧ e'.finalApprover = some adminId ∧
    (d = "approved" → e'.approvedAt = some now) ∧
    (d ≠ "approved" → e'.rejectedAt = some now ∧ e'.rejectionReason = some c) := by
  simp only [overrideApproval] at heq
  by_cases hd : d = "approved" ∨ d = "rejected"
  · rw [if_pos hd, Except.ok.injEq] at heq
    subst heq
    by_cases hda : d = "approved"
    · refine ⟨?_, ?_, fun _ => ?_, fun hne => absurd hda hne⟩ <;> rw [if_pos hda]
    · refine ⟨?_, ?_, fun hda2 => absurd hda2 hda, fun _ => ⟨?_, ?_⟩⟩ <;> rw [if_neg hda]
  · rw [if_neg hd] at heq
    exact Except.noConfusion heq

/-- C8 (confirmed).  For any prior expense state, the administrative
override with a valid decision succeeds, sets the status directly to the
decision, stamps `finalApprover` with the admin, stamps `approvedAt` on
approve or `rejectedAt`/`rejectionReason` on reject, marks every
still-pending step `overridden` with the system comment, and leaves every
already-decided step unchanged. -/
theorem admin_override_forces_state (e : Expense) (adminId : Nat) (d c : String)
    (now : Nat) (hd : d = "approved" ∨ d = "rejected") :
    ∃ e', overrideApproval e adminId d c now = .ok e' ∧
      e'.status = d ∧ e'.finalApprover = some adminId ∧
      (d = "approved" → e'.approvedAt = some now) ∧
      (d = "rejected" → e'.rejectedAt = some now ∧ e'.rejectionReason = some c) ∧
      ∀ (j : Nat) (a : Approval), e.approvals[j]? = some a →
        (a.status = "pending" →
          e'.approvals[j]? = some { a with status := "overridden",
                                           comments := some "Overridden by admin",
                                           approvedAt := some now }) ∧
        (a.status ≠ "pending" → e'.approvals[j]? = some a) := by
  cases hq : overrideApproval e adminId d c now with
  | error m =>
    exfalso
    simp only [overrideApproval] at hq
    rw [if_pos hd] at hq
    exact Except.noConfusion hq
  | ok e' =>
    obtain ⟨h1, h2, h3, h4⟩ := overrideApproval_ok_fields e adminId d c now e' hq
    have happ := overrideApproval_ok_approvals e adminId d c now e' hq
    refine ⟨e', rfl, h1, h2, h3, fun hr => h4 (by rw [hr]; decide), ?_⟩
    intro j a ha
    constructor
    · intro hpend
      rw [happ, List.getElem?_map, ha, Option.map_some']
      rw [if_pos hpend]
    · intro hnp
      rw [happ, List.getElem?_map, ha, Option.map_some']
      rw [if_neg hnp]

/-- Witness for C8: override on an in-review expense with one decided and
one pending step. -/
theorem admin_override_forces_state_witness :
    (overrideApproval exHalfDone 9 "approved" "c" 7).toOption.map
      (fun x => (x.status, x.finalApprover, x.approvedAt))
      = some ("approved", some 9, some 7) := by
  obtain ⟨e', heq, h1, h2, h3, -, -⟩ :=
    admin_override_forces_state exHalfDone 9 "approved" "c" 7 (Or.inl rfl)
  rw [heq]
  simp [Except.toOption, h1, h2, h3 rfl]

/-- C9 (confirmed).  A newly created expense with an empty resolved chain
is immediately `approved` with `approvedAt` stamped and no pending steps;
with a non-empty chain it is `in_review`, every step is pending, and
`currentApprovalLevel` equals the lowest sequence among the (pending)
steps. -/
theorem create_expense_initial_status (rules : List ApprovalRule) (emp : User)
    (companyId : Nat) (cat : String) (amount : Int) (now : Nat) :
    ((createExpense rules emp companyId cat amount now).approvals = [] →
      (createExpense rules emp companyId cat amount now).status = "approved" ∧
      (createExpense rules emp companyId cat amount now).approvedAt = some now) ∧
    ((createExpense rules emp companyId cat amount now).approvals ≠ [] →
      (createExpense rules emp companyId cat amount now).status = "in_review" ∧
      (∀ a ∈ (createExpense rules emp companyId cat amount now).approvals,
        a.status = "pending" ∧
        (createExpense rules emp companyId cat amount now).currentApprovalLevel
          ≤ a.sequence) ∧
      ∃ a ∈ (createExpense rules emp companyId cat amount now).approvals,
        (createExpense rules emp companyId cat amount now).currentApprovalLevel
          = a.sequence) := by
  cases hc : determineApprovers rules (newExpenseDoc emp companyId cat amount) emp with
  | nil =>
    constructor
    · intro _
      constructor <;> simp [createExpense, hc]
    · intro hne
      exact absurd (by simp only [createExpense, hc]; rfl) hne
  | cons a rest =>
    have hpend := determineApprovers_pending rules
      (newExpenseDoc emp companyId cat amount) emp
    have hsort := determineApprovers_sorted rules
      (newExpenseDoc emp companyId cat amount) emp
    rw [hc] at hpend hsort
    have happ : (createExpense rules emp companyId cat amount now).approvals
        = a :: rest := by simp [createExpense, hc]
    have hst : (createExpense rules emp companyId cat amount now).status
        = "in_review" := by simp [createExpense, hc]
    have hlvl : (createExpense rules emp companyId cat amount now).currentApprovalLevel
        = a.sequence := by simp [createExpense, hc]
    constructor
    · intro habs
      rw [happ] at habs
      exact absurd habs (List.cons_ne_nil a rest)
    · intro _
      refine ⟨hst, ?_, ?_⟩
      · intro b hb
        rw [happ] at hb
        refine ⟨hpend b hb, ?_⟩
        rw [hlvl]
        rcases List.mem_cons.mp hb with rfl | hb2
        · exact le_refl _
        · exact List.rel_of_sorted_cons hsort b hb2
      · refine ⟨a, ?_, hlvl⟩
        rw [happ]
        exact List.mem_cons_self a rest

/-- Witness for C9: no rules and no manager, so the chain is empty and the
expense is auto-approved at creation. -/
theorem create_expense_initial_status_witness :
    (createExpense [] exNoMgr 1 "food" 5 7).status = "approved" ∧
    (createExpense [] exNoMgr 1 "food" 5 7).approvedAt = some 7 :=
  (create_expense_initial_status [] exNoMgr 1 "food" 5 7).1 (by decide)

/-- C10 (confirmed).  The persisted step-status enum is exactly
`pending`/`approved`/`rejected`, so `overridden` fails validation: whenever
the admin override succeeds on an expense that still has a pending step,
the resulting document cannot pass the schema's enum validation. -/
theorem overridden_status_not_persistable (e : Expense) (adminId : Nat) (d c : String)
    (now : Nat) (e' : Expense) (heq : overrideApproval e adminId d c now = .ok e')
    (hp : ∃ a ∈ e.approvals, a.status = "pending") :
    stepStatusValid "overridden" = false ∧ expenseSchemaValid e' = false := by
  refine ⟨by decide, ?_⟩
  obtain ⟨a, ha, hpend⟩ := hp
  have happ := overrideApproval_ok_approvals e adminId d c now e' heq
  have hmem : ({ a with status := "overridden",
                        comments := some "Overridden by admin",
                        approvedAt := some now } : Approval) ∈ e'.approvals := by
    rw [happ]
    exact List.mem_map.mpr ⟨a, ha, by rw [if_pos hpend]⟩
  have hall : e'.approvals.all (fun s => stepStatusValid s.status) = false :=
    List.all_eq_false.mpr ⟨_, hmem, by simp [stepStatusValid]⟩
  simp [expenseSchemaValid, hall]

/-- Witness for C10: overriding `exHalfDone` yields a document that fails
schema validation. -/
theorem overridden_status_not_persistable_witness :
    (overrideApproval exHalfDone 9 "approved" "c" 7).toOption.map expenseSchemaValid
      = some false := by
  cases hov : overrideApproval exHalfDone 9 "approved" "c" 7 with
  | error m =>
    have hok : (overrideApproval exHalfDone 9 "approved" "c" 7).isOk = true := by decide
    rw [hov] at hok
    exact absurd hok (by simp [Except.isOk, Except.toBool])
  | ok e' =>
    have h := overridden_status_not_persistable exHalfDone 9 "approved" "c" 7 e' hov
      ⟨⟨2, "pending", none, none, 1⟩, by decide, rfl⟩
    simp [Except.toOption, h.2]

end ExpenseManager
